import Mathlib

set_option maxRecDepth 8192

/-- Boolean test that the first character list is a leading segment of the second. -/
def pfxb : List Char → List Char → Bool
  | [], _ => true
  | _ :: _, [] => false
  | a :: as, b :: bs => a == b && pfxb as bs

/-- Modelled from the ECMAScript String.prototype.startsWith used throughout the source. -/
def strStartsWith (s pre : String) : Bool := pfxb pre.data s.data

/-- Modelled from the ECMAScript String.prototype.endsWith used throughout the source. -/
def strEndsWith (s suf : String) : Bool := pfxb suf.data.reverse s.data.reverse

/-- Modelled from the ECMAScript String.prototype.slice with one argument. -/
def strDrop (s : String) (n : Nat) : String := ⟨s.data.drop n⟩

/-- Modelled from the ECMAScript string length. -/
def strLength (s : String) : Nat := s.data.length

/-- Modelled from the spec: the shared utility slash, converting backslashes to forward slashes. -/
def slash (p : String) : String := ⟨p.data.map (fun c => if c = '\\' then '/' else c)⟩

/-- Modelled from the spec: the shared utility withTrailingSlash, appending a slash when one is missing. -/
def withTrailingSlash (p : String) : String := if strEndsWith p "/" then p else p ++ "/"

/-- Modelled from the spec: the utility removeLeadingSlash, dropping one leading slash. -/
def removeLeadingSlash (s : String) : String := if strStartsWith s "/" then strDrop s 1 else s

/-- Modelled from the spec: the shared utility cleanUrl, stripping the query/fragment suffix. -/
def cleanUrl (url : String) : String := ⟨url.data.takeWhile (fun c => !(c == '?' || c == '#'))⟩

/-- Modelled from the WHATWG URL parser: the pathname of a path-only request URL is the part before the query or fragment. -/
def urlPathnameOf (url : String) : String := ⟨url.data.takeWhile (fun c => !(c == '?' || c == '#'))⟩

/-- Modelled from the WHATWG URL pathname setter: a pathname assigned without a leading slash gains one. -/
def ensureLeadingSlash (s : String) : String := if strStartsWith s "/" then s else "/" ++ s

/-- Value of an ASCII hexadecimal digit. -/
def hexVal (c : Char) : Option Nat :=
  if '0' ≤ c ∧ c ≤ '9' then some (c.toNat - 48)
  else if 'A' ≤ c ∧ c ≤ 'F' then some (c.toNat - 55)
  else if 'a' ≤ c ∧ c ≤ 'f' then some (c.toNat - 87)
  else none

/-- Characters whose percent escapes decodeURI leaves in place: the ECMAScript reserved URI set plus the hash. -/
def uriReserved (c : Char) : Bool :=
  c == ';' || c == '/' || c == '?' || c == ':' || c == '@' || c == '&' || c == '=' ||
    c == '+' || c == '$' || c == ',' || c == '#'

/-- Reads a percent escape: a percent sign followed by two hexadecimal digits. -/
def pctHex : List Char → Option (Nat × List Char)
  | '%' :: h₁ :: h₂ :: rest =>
    match hexVal h₁, hexVal h₂ with
    | some a, some b => some (16 * a + b, rest)
    | _, _ => none
  | _ => none

/-- Reads a UTF-8 continuation byte written as a percent escape. -/
def contByte (l : List Char) : Option (Nat × List Char) :=
  match pctHex l with
  | some (n, rest) => if 128 ≤ n ∧ n ≤ 191 then some (n - 128, rest) else none
  | none => none

/-- Fuel-indexed percent-decoding loop; the fuel bounds the number of characters consumed. -/
def decodeGo : Nat → List Char → Option (List Char)
  | _, [] => some []
  | 0, _ :: _ => none
  | fuel + 1, c :: t =>
    if c = '%' then
      match pctHex (c :: t) with
      | none => none
      | some (n, rest) =>
        if n < 128 then
          if uriReserved (Char.ofNat n) then
            (decodeGo fuel rest).map (fun d => c :: t.take 2 ++ d)
          else
            (decodeGo fuel rest).map (fun d => Char.ofNat n :: d)
        else if 194 ≤ n ∧ n ≤ 223 then
          match contByte rest with
          | some (m₁, r₁) => (decodeGo fuel r₁).map (fun d => Char.ofNat ((n - 192) * 64 + m₁) :: d)
          | none => none
        else if 224 ≤ n ∧ n ≤ 239 then
          match contByte rest with
          | some (m₁, r₁) =>
            match contByte r₁ with
            | some (m₂, r₂) =>
              let cp := (n - 224) * 4096 + m₁ * 64 + m₂
              if cp < 2048 ∨ (55296 ≤ cp ∧ cp ≤ 57343) then none
              else (decodeGo fuel r₂).map (fun d => Char.ofNat cp :: d)
            | none => none
          | none => none
        else if 240 ≤ n ∧ n ≤ 244 then
          match contByte rest with
          | some (m₁, r₁) =>
            match contByte r₁ with
            | some (m₂, r₂) =>
              match contByte r₂ with
              | some (m₃, r₃) =>
                let cp := (n - 240) * 262144 + m₁ * 4096 + m₂ * 64 + m₃
                if cp < 65536 ∨ 1114111 < cp then none
                else (decodeGo fuel r₃).map (fun d => Char.ofNat cp :: d)
              | none => none
            | none => none
          | none => none
        else none
    else
      (decodeGo fuel t).map (fun d => c :: d)

/-- Modelled from the ECMAScript decodeURI builtin: percent-decodes, keeps escapes of reserved characters, and fails (none, standing for the thrown URIError) on malformed escapes or invalid UTF-8. -/
def decodeURI (s : String) : Option String :=
  (decodeGo s.data.length s.data).map (fun l => ⟨l⟩)

/-- Splits a character list at slashes, accumulating the current piece in reverse. -/
def splitGo : List Char → List Char → List (List Char)
  | [], acc => [acc.reverse]
  | '/' :: t, acc => acc.reverse :: splitGo t []
  | c :: t, acc => splitGo t (c :: acc)

/-- Joins pieces with the given separator. -/
def joinWith (sep : List Char) : List (List Char) → List Char
  | [] => []
  | [x] => x
  | x :: xs => x ++ sep ++ joinWith sep xs

/-- Folds path segments, resolving parent-directory segments; relative paths keep leading parent segments. -/
def foldSegs (isAbs : Bool) (segs : List (List Char)) : List (List Char) :=
  (segs.foldl (fun acc s =>
    if s = ['.', '.'] then
      match acc with
      | [] => if isAbs then [] else [['.', '.']]
      | top :: rest => if top = ['.', '.'] then s :: acc else rest
    else s :: acc) []).reverse

/-- Modelled from node path.posix.normalize: collapses repeated slashes and dot segments, keeping a trailing slash. -/
def posixNormalizeL (l : List Char) : List Char :=
  if l = [] then ['.']
  else
    let isAbs : Bool := l.head? == some '/'
    let trail : Bool := (l.getLast? == some '/') && decide (1 < l.length)
    let segs := (splitGo l []).filter (fun s => !s.isEmpty && !(s == ['.']))
    let segs := foldSegs isAbs segs
    let body := joinWith ['/'] segs
    if segs.isEmpty then (if isAbs then ['/'] else if trail then ['.', '/'] else ['.'])
    else ((if isAbs then '/' :: body else body) ++ (if trail then ['/'] else []))

/-- Modelled from the spec: the utility normalizePath on the posix platform. -/
def normalizePath (p : String) : String := ⟨posixNormalizeL p.data⟩

/-- Modelled from node path.posix.resolve of an absolute base directory and one further segment: join, collapse dot segments, no trailing slash. -/
def pathResolveL (dir rel : List Char) : List Char :=
  let joined := if rel.head? == some '/' then rel else dir ++ '/' :: rel
  let segs := (splitGo joined []).filter (fun s => !s.isEmpty && !(s == ['.']))
  let segs := (segs.foldl (fun acc s => if s = ['.', '.'] then acc.tail else s :: acc) []).reverse
  '/' :: joinWith ['/'] segs

/-- Index of the last dot of a character list, if any. -/
def lastDotIdx (b : List Char) : Option Nat :=
  (List.range b.length).foldl (fun acc i => if b.get? i = some '.' then some i else acc) none

/-- Modelled from node path.extname: the extension of the basename, empty for dotfiles. -/
def extname (s : String) : String :=
  let b := (s.data.reverse.takeWhile (fun c => !(c == '/'))).reverse
  match lastDotIdx b with
  | none => ""
  | some 0 => ""
  | some i => ⟨b.drop i⟩

/-- Modelled from the spec: the escape-hatch marker FS_PREFIX. -/
def FS_PREFIX : String := "/@fs/"

/-- Modelled from the spec: the reserved path markers of internal requests. -/
def internalPrefixes : List String := ["/@fs/", "/@id/", "/@vite/client", "/@vite/env"]

/-- Recognition of internal requests by their reserved path markers. -/
def isInternalRequest (url : String) : Bool := internalPrefixes.any (fun p => strStartsWith url p)

/-- Accepts what may follow the import keyword of the reserved query marker: an optional equals sign, then another parameter or the end. -/
def importTail : List Char → Bool
  | [] => true
  | '&' :: _ => true
  | '=' :: rest => match rest with | [] => true | '&' :: _ => true | _ => false
  | _ => false

/-- Scan for the reserved import query marker after a question mark or ampersand. -/
def isImportRequestL : List Char → Bool
  | [] => false
  | c :: rest =>
    ((c == '?' || c == '&') && pfxb "import".data rest && importTail (rest.drop 6)) ||
      isImportRequestL rest

/-- Modelled from the spec: the reserved query marker identifying import requests. -/
def isImportRequest (url : String) : Bool := isImportRequestL url.data

structure FsOptions where
  strict : Bool
  allow : List String

structure ServerOptions where
  fs : FsOptions

/-- Resolved configuration as consumed by the access-control layer: the strict flag and allow list, the compiled deny matcher, and the trusted module paths. -/
structure ResolvedConfig where
  server : ServerOptions
  fsDenyGlob : String → Bool
  safeModulePaths : List String

/-- Modelled from the spec: samePath, true when two normalized absolute paths denote the same entry (case-sensitive platform). -/
def isSameFilePath (file1 file2 : String) : Bool := file1 == file2

/-- Modelled from the spec: isAncestor, true when the candidate's separator-terminated form starts with the target's separator-terminated form and the two differ. -/
def isParentDirectory (dir file : String) : Bool :=
  pfxb (withTrailingSlash dir).data (withTrailingSlash file).data && file != dir

/-- Containment predicate of the source (static.ts lines 271-276). -/
def isFileInTargetPath (targetPath filePath : String) : Bool :=
  isSameFilePath targetPath filePath || isParentDirectory targetPath filePath

/-- Access policy engine of the source (static.ts lines 281-296). -/
def isFileLoadingAllowed (config : ResolvedConfig) (filePath : String) : Bool :=
  if !config.server.fs.strict then true
  else if config.fsDenyGlob filePath then false
  else if config.safeModulePaths.contains filePath then true
  else if config.server.fs.allow.any (fun uri => isFileInTargetPath uri filePath) then true
  else false

inductive LoadingAccess where
  | allowed
  | denied
  | fallback
  deriving DecidableEq

/-- Existence-aware decision of the source (static.ts lines 298-311); the readability check is the abstract filesystem parameter. -/
def checkLoadingAccess (isFileReadable : String → Bool) (config : ResolvedConfig)
    (path : String) : LoadingAccess :=
  if isFileLoadingAllowed config (slash path) then .allowed
  else if isFileReadable path then .denied
  else .fallback

/-- Error code marking a policy denial (source constant ERR_DENIED_FILE). -/
def ERR_DENIED_FILE : String := "ERR_DENIED_FILE"

structure JSError where
  code : Option String
  path : String
  deriving DecidableEq

/-- Per-path predicate handed to the static-file-server collaborator (static.ts lines 60-75): throws the tagged denial error on denied, declines on fallback, serves on allowed. -/
def sirvShouldServe (isFileReadable : String → Bool) (config : ResolvedConfig)
    (filePath : String) : Except JSError Bool :=
  match checkLoadingAccess isFileReadable config filePath with
  | .denied => Except.error ⟨some ERR_DENIED_FILE, filePath⟩
  | .fallback => Except.ok false
  | .allowed => Except.ok true

inductive StageOutcome where
  | completed
  | respondDenied (path : String)
  | rethrown (e : JSError)
  deriving DecidableEq

/-- Serve invocation of the root middleware with its catch (static.ts lines 185-193). -/
def viteServeStaticServe (serveResult : Except JSError Unit) : StageOutcome :=
  match serveResult with
  | Except.ok _ => .completed
  | Except.error e => if e.code == some ERR_DENIED_FILE then .respondDenied e.path else .rethrown e

/-- Serve invocation of the raw-filesystem middleware with its catch (static.ts lines 222-230). -/
def viteServeRawFsServe (serveResult : Except JSError Unit) : StageOutcome :=
  match serveResult with
  | Except.ok _ => .completed
  | Except.error e => if e.code == some ERR_DENIED_FILE then .respondDenied e.path else .rethrown e

/-- Public-stage path mapping (static.ts lines 93-103): query stripped, percent-decoded when a percent sign occurs, the decode failure recovered by keeping the encoded form, then normalized. -/
def toFilePath (url : String) : String :=
  let filePath := cleanUrl url
  let filePath :=
    if filePath.data.any (fun c => c == '%') then
      match decodeURI filePath with
      | some d => d
      | none => filePath
    else filePath
  normalizePath filePath

/-- Gating of the root middleware (static.ts lines 141-151): declined URLs fall through to the next handler before any resolution. -/
def viteServeStaticDeclines (url : String) : Bool :=
  strEndsWith (cleanUrl url) "/" || extname (cleanUrl url) == ".html" ||
    isInternalRequest url || strStartsWith url "//"

inductive RootStageStep where
  | declined
  | resolved (pathname : String)
  | crashed
  deriving DecidableEq

/-- Entry of the root middleware up to pathname decoding: gating, then the unguarded percent-decode of the pathname (static.ts line 154); crashed models the URIError escaping the middleware. -/
def viteServeStaticStep (url : String) : RootStageStep :=
  if viteServeStaticDeclines url then .declined
  else
    match decodeURI (urlPathnameOf url) with
    | some pathname => .resolved pathname
    | none => .crashed

structure AliasRule where
  find : String
  replacement : String

/-- Replaces the first occurrence of the pattern in the list, if any. -/
def replaceFirstL (pat rep : List Char) : List Char → List Char
  | [] => if pfxb pat [] then rep else []
  | c :: cs =>
    if pfxb pat (c :: cs) then rep ++ (c :: cs).drop pat.length
    else c :: replaceFirstL pat rep cs

/-- Modelled from the ECMAScript String.prototype.replace with a plain-string pattern: first occurrence only. -/
def jsReplaceFirst (s pat rep : String) : String := ⟨replaceFirstL pat.data rep.data s.data⟩

/-- Alias loop of the root middleware (static.ts lines 157-167): the first matching rule produces the rewritten pathname (string matchers; pattern matchers live in an external regular-expression engine). -/
def applyAliases : List AliasRule → String → Option String
  | [], _ => none
  | r :: rest, pathname =>
    if strStartsWith pathname r.find then some (jsReplaceFirst pathname r.find r.replacement)
    else applyAliases rest pathname

/-- Resolution of a root-relative pathname against the served root, as the root middleware does for a non-rewritten pathname (static.ts lines 176-179). -/
def directResolve (dir pathname : String) : String :=
  let fileUrl : String := ⟨pathResolveL dir.data (removeLeadingSlash pathname).data⟩
  if strEndsWith pathname "/" && !(strEndsWith fileUrl "/") then fileUrl ++ "/" else fileUrl

/-- Pathname resolution of the root middleware (static.ts lines 153-179): percent-decode, alias rewrite with root stripping and the falsy-string fallbacks, then resolution against the served root; none models the escaping URIError. -/
def staticResolve (rules : List AliasRule) (dir url : String) : Option String :=
  match decodeURI (urlPathnameOf url) with
  | none => none
  | some pathname =>
    let redirected := applyAliases rules pathname
    let redirected :=
      match redirected with
      | some r =>
        if !(r == "") && strStartsWith r (withTrailingSlash dir) then some (strDrop r (strLength dir))
        else some r
      | none => none
    let resolvedPathname :=
      match redirected with
      | some r => if r == "" then pathname else r
      | none => pathname
    some (directResolve dir resolvedPathname)

inductive RawFsOutcome where
  | declined
  | resolved (path : String)
  | crashed
  deriving DecidableEq

/-- Modelled from the source regular expression stripping a leading drive letter and colon. -/
def stripDriveLetter (s : String) : String :=
  match s.data with
  | c₁ :: c₂ :: rest =>
    if ((decide ('A' ≤ c₁) && decide (c₁ ≤ 'Z')) || (decide ('a' ≤ c₁) && decide (c₁ ≤ 'z'))) &&
        c₂ == ':' then ⟨rest⟩
    else s
  | _ => s

/-- Raw-filesystem middleware resolution (static.ts lines 209-220): recognizes the escape-hatch marker, strips it, strips a drive letter on Windows, and substitutes the request pathname; crashed models the URIError escaping at line 216. -/
def viteServeRawFsStep (isWindows : Bool) (url : String) : RawFsOutcome :=
  if strStartsWith url FS_PREFIX then
    match decodeURI (urlPathnameOf url) with
    | none => .crashed
    | some pathname =>
      let newPathname := strDrop pathname (strLength FS_PREFIX)
      let newPathname := if isWindows then stripDriveLetter newPathname else newPathname
      .resolved (ensureLeadingSlash newPathname)
  else .declined

structure ViteDevServer where
  config : ResolvedConfig

/-- Modelled from the spec: the utility fsPathFromUrl deriving a filesystem path from a URL (query stripped, escape-hatch marker unwrapped, normalized, leading slash ensured); its source lies outside the given files. -/
def fsPathFromUrl (url : String) : String :=
  let id := cleanUrl url
  let fsPath := normalizePath (if strStartsWith id FS_PREFIX then strDrop id (strLength FS_PREFIX) else id)
  if strStartsWith fsPath "/" then fsPath else "/" ++ fsPath

/-- Overloaded serving check of the source (static.ts lines 241-263): the runtime shape dispatch, with none marking a call shape outside both documented overloads. -/
def isFileServingAllowed (configOrUrl : Sum ResolvedConfig String)
    (urlOrServer : Sum String ViteDevServer) : Option Bool :=
  let config? : Option ResolvedConfig :=
    match urlOrServer with
    | Sum.inl _ => match configOrUrl with | Sum.inl c => some c | Sum.inr _ => none
    | Sum.inr server => some server.config
  let url? : Option String :=
    match urlOrServer with
    | Sum.inl u => some u
    | Sum.inr _ => match configOrUrl with | Sum.inr u => some u | Sum.inl _ => none
  match config?, url? with
  | some config, some url =>
    some (if !config.server.fs.strict then true else isFileLoadingAllowed config (fsPathFromUrl url))
  | _, _ => none

/-- Concatenated character-wise expansion, the shape shared by HTML escaping and newline replacement. -/
def cmap (f : Char → List Char) : List Char → List Char
  | [] => []
  | c :: cs => f c ++ cmap f cs

/-- Modelled from the escape-html package: HTML-escapes ampersand, quotes, apostrophe, and angle brackets. -/
def escapeHtmlChar (c : Char) : List Char :=
  if c = '&' then "&amp;".data
  else if c = '"' then "&quot;".data
  else if c = '\'' then "&#39;".data
  else if c = '<' then "&lt;".data
  else if c = '>' then "&gt;".data
  else [c]

/-- Full HTML escaping over a character list. -/
def escapeHtml (s : List Char) : List Char := cmap escapeHtmlChar s

/-- Expansion replacing newlines by HTML line breaks, modelling the newline replace in the source template. -/
def brChar (c : Char) : List Char := if c = '\n' then "<br/>".data else [c]

/-- Newline-to-break replacement over a character list. -/
def nlToBr (s : List Char) : List Char := cmap brChar s

/-- Combined per-character expansion: escape first, then newline-to-break. -/
def renderChar (c : Char) : List Char := cmap brChar (escapeHtmlChar c)

/-- Leading fixed part of the restricted-error HTML template. -/
def htmlPre : String := "\n    <body>\n      <h1>403 Restricted</h1>\n      <p>"

/-- Trailing fixed part of the restricted-error HTML template. -/
def htmlPost : String :=
  "</p>\n      <style>\n        body \x7b\n          padding: 1em 2em;\n        \x7d\n      </style>\n    </body>\n  "

/-- Restricted-error page of the source (static.ts lines 331-345): the fixed template around the escaped message with newlines turned into breaks. -/
def renderRestrictedErrorHTML (msg : List Char) : List Char :=
  htmlPre.data ++ nlToBr (escapeHtml msg) ++ htmlPost.data

/-- Denial message naming the request id (static.ts line 318). -/
def urlMessage (id : String) : List Char :=
  "The request id \"".data ++ id.data ++ "\" is outside of Vite serving allow list.".data

/-- Denial hint listing the allow roots line by line (static.ts lines 319-322). -/
def hintMessage (allow : List String) : List Char :=
  '\n' :: joinWith ['\n'] (allow.map (fun i => '-' :: ' ' :: i.data)) ++
    "\n\nRefer to docs https://vite.dev/config/server-options.html#server-fs-allow for configurations and more details.".data

structure DenialResponse where
  statusCode : Nat
  body : List Char

/-- Denial response of the source (static.ts lines 313-329): status 403 and the rendered restricted-error page over the combined message. -/
def respondWithAccessDenied (id : String) (allow : List String) : DenialResponse :=
  ⟨403, renderRestrictedErrorHTML (urlMessage id ++ '\n' :: hintMessage allow)⟩

inductive SpecDecision where
  | allowed
  | denied
  deriving DecidableEq

/-- Classification operation written from the specification text (section 4.2): strict bypass, deny veto, trusted membership, allow-root containment, default deny, in that order. -/
def classify (config : ResolvedConfig) (absolutePath : String) : SpecDecision :=
  if !config.server.fs.strict then .allowed
  else if config.fsDenyGlob absolutePath then .denied
  else if config.safeModulePaths.contains absolutePath then .allowed
  else if config.server.fs.allow.any (fun entry => isFileInTargetPath entry absolutePath) then .allowed
  else .denied

/-- Escape-then-break expansion applied to every interpolated text of the denial body. -/
def brEscape (l : List Char) : List Char := nlToBr (escapeHtml l)

/-- The raw script tag whose absence from the denial body is asserted. -/
def scriptL : List Char := ['<', 's', 'c', 'r', 'i', 'p', 't', '>']

/-- A block is harmless when it is nonempty, has angle brackets only in leading position, and is prefix-incomparable with the raw script tag. -/
def blockOK (b : List Char) : Prop :=
  b ≠ [] ∧ (∀ c ∈ b.tail, c ≠ '<') ∧ ¬ scriptL <+: b ∧ ¬ b <+: scriptL

instance (b : List Char) : Decidable (blockOK b) :=
  inferInstanceAs
    (Decidable (b ≠ [] ∧ (∀ c ∈ b.tail, c ≠ '<') ∧ ¬ scriptL <+: b ∧ ¬ b <+: scriptL))

/-- Chunking of the leading template into harmless blocks. -/
def preBlocks : List (List Char) :=
  ["\n    ".data, "<body>".data, "\n      ".data, "<h1>".data, "403 Restricted".data,
   "</h1>".data, "\n      ".data, "<p>".data]

/-- Chunking of the trailing template into harmless blocks. -/
def postBlocks : List (List Char) :=
  ["</p>".data, "\n      ".data, "<style>".data,
   "\n        body \x7b\n          padding: 1em 2em;\n        \x7d\n      ".data,
   "</style>".data, "\n    ".data, "</body>".data, "\n  ".data]

/-- C1: the policy engine evaluates in the fixed order of the specification: strict bypass first (a non-strict policy allows every path), then the deny veto, then trusted-path membership, then allow-root containment, then default deny; its boolean outcome agrees with the specification classification for every configuration and path. -/
theorem isFileLoadingAllowed_matches_classify (config : ResolvedConfig) (p : String) :
    (isFileLoadingAllowed config p = true ↔ classify config p = SpecDecision.allowed) ∧
      (config.server.fs.strict = false → isFileLoadingAllowed config p = true) := by
  constructor
  · unfold isFileLoadingAllowed classify
    cases hs : config.server.fs.strict <;>
      cases hd : config.fsDenyGlob p <;>
        cases ht : config.safeModulePaths.contains p <;>
          cases ha : config.server.fs.allow.any (fun uri => isFileInTargetPath uri p) <;>
            simp [hs, hd, ht, ha]
  · intro h
    unfold isFileLoadingAllowed
    simp [h]

theorem isFileLoadingAllowed_matches_classify_w :
    isFileLoadingAllowed ⟨⟨⟨false, []⟩⟩, fun _ => true, []⟩ "/etc/passwd" = true :=
  (isFileLoadingAllowed_matches_classify ⟨⟨⟨false, []⟩⟩, fun _ => true, []⟩ "/etc/passwd").2 rfl

/-- C2: for a strict policy, a deny-glob match forces denial regardless of trusted-path membership or allow-root containment. -/
theorem deny_precedence (config : ResolvedConfig) (p : String)
    (hstrict : config.server.fs.strict = true) (hdeny : config.fsDenyGlob p = true) :
    isFileLoadingAllowed config p = false := by
  unfold isFileLoadingAllowed
  simp [hstrict, hdeny]

theorem deny_precedence_w :
    isFileLoadingAllowed ⟨⟨⟨true, ["/proj"]⟩⟩, fun s => s == "/proj/.env", ["/proj/.env"]⟩
      "/proj/.env" = false :=
  deny_precedence _ _ rfl (by decide)

/-- C3: checkLoadingAccess is the three-valued decision: allowed exactly when the policy engine allows the slash-normalized path; otherwise denied exactly when the path is readable on disk, and fallback exactly otherwise; no fourth outcome exists. -/
theorem checkLoadingAccess_trichotomy (isFileReadable : String → Bool) (config : ResolvedConfig)
    (p : String) :
    (checkLoadingAccess isFileReadable config p = LoadingAccess.allowed ↔
      isFileLoadingAllowed config (slash p) = true) ∧
    (checkLoadingAccess isFileReadable config p = LoadingAccess.denied ↔
      isFileLoadingAllowed config (slash p) = false ∧ isFileReadable p = true) ∧
    (checkLoadingAccess isFileReadable config p = LoadingAccess.fallback ↔
      isFileLoadingAllowed config (slash p) = false ∧ isFileReadable p = false) := by
  unfold checkLoadingAccess
  cases h1 : isFileLoadingAllowed config (slash p) <;> cases h2 : isFileReadable p <;>
    simp [h1, h2]

theorem checkLoadingAccess_trichotomy_w :
    checkLoadingAccess (fun _ => true) ⟨⟨⟨true, []⟩⟩, fun _ => false, []⟩ "/etc/passwd" =
      LoadingAccess.denied :=
  (checkLoadingAccess_trichotomy (fun _ => true) ⟨⟨⟨true, []⟩⟩, fun _ => false, []⟩
    "/etc/passwd").2.1.mpr (by decide)

/-- C7: in the root and raw-fs stages a collaborator fault is handled locally exactly when it carries the policy-denial code, producing the denial response for its path; any other fault is rethrown unchanged; and the serving predicate raises exactly that tagged fault, carrying the offending path, exactly on a denied decision. -/
theorem denial_fault_handling (e : JSError) (isFileReadable : String → Bool)
    (config : ResolvedConfig) (p : String) :
    (viteServeStaticServe (Except.error e) = StageOutcome.respondDenied e.path ↔
      e.code = some ERR_DENIED_FILE) ∧
    (viteServeRawFsServe (Except.error e) = StageOutcome.respondDenied e.path ↔
      e.code = some ERR_DENIED_FILE) ∧
    (e.code ≠ some ERR_DENIED_FILE →
      viteServeStaticServe (Except.error e) = StageOutcome.rethrown e ∧
        viteServeRawFsServe (Except.error e) = StageOutcome.rethrown e) ∧
    (sirvShouldServe isFileReadable config p = Except.error ⟨some ERR_DENIED_FILE, p⟩ ↔
      checkLoadingAccess isFileReadable config p = LoadingAccess.denied) := by
  refine ⟨?_, ?_, ?_, ?_⟩
  · unfold viteServeStaticServe
    by_cases h : e.code = some ERR_DENIED_FILE <;> simp [h]
  · unfold viteServeRawFsServe
    by_cases h : e.code = some ERR_DENIED_FILE <;> simp [h]
  · intro h
    unfold viteServeStaticServe viteServeRawFsServe
    simp [h]
  · unfold sirvShouldServe
    cases h : checkLoadingAccess isFileReadable config p <;> simp [h]

theorem denial_fault_handling_w :
    viteServeStaticServe (Except.error ⟨some ERR_DENIED_FILE, "/etc/passwd"⟩) =
      StageOutcome.respondDenied "/etc/passwd" ∧
    viteServeRawFsServe (Except.error ⟨some "ENOENT", "/x"⟩) =
      StageOutcome.rethrown ⟨some "ENOENT", "/x"⟩ :=
  ⟨(denial_fault_handling ⟨some ERR_DENIED_FILE, "/etc/passwd"⟩ (fun _ => false)
      ⟨⟨⟨true, []⟩⟩, fun _ => false, []⟩ "").1.mpr rfl,
   ((denial_fault_handling ⟨some "ENOENT", "/x"⟩ (fun _ => false)
      ⟨⟨⟨true, []⟩⟩, fun _ => false, []⟩ "").2.2.1 (by decide)).2⟩

/-- C10: the two documented call shapes of isFileServingAllowed agree: with the same configuration and URL both overloads return the same boolean, namely true when strict mode is off and otherwise the policy-engine result on the filesystem path derived from the URL. -/
theorem isFileServingAllowed_overloads (config : ResolvedConfig) (url : String) :
    isFileServingAllowed (Sum.inl config) (Sum.inl url) =
      isFileServingAllowed (Sum.inr url) (Sum.inr ⟨config⟩) ∧
    isFileServingAllowed (Sum.inl config) (Sum.inl url) =
      some (if config.server.fs.strict then isFileLoadingAllowed config (fsPathFromUrl url)
            else true) := by
  constructor
  · rfl
  · unfold isFileServingAllowed
    cases h : config.server.fs.strict <;> simp [h]

theorem isFileServingAllowed_overloads_w :
    isFileServingAllowed (Sum.inl ⟨⟨⟨true, ["/proj"]⟩⟩, fun _ => false, []⟩)
        (Sum.inl "/proj/a.js") =
      isFileServingAllowed (Sum.inr "/proj/a.js")
        (Sum.inr ⟨⟨⟨⟨true, ["/proj"]⟩⟩, fun _ => false, []⟩⟩) :=
  (isFileServingAllowed_overloads ⟨⟨⟨true, ["/proj"]⟩⟩, fun _ => false, []⟩ "/proj/a.js").1

/-- C8 (amended): the root stage declines, before any resolution or policy consultation, exactly for request URLs whose cleaned path ends in a slash, has an html extension, is recognized as an internal request, or begins with a double slash; import-marked URLs get no extra decline check in this stage. -/
theorem static_decline_characterization (url : String) :
    viteServeStaticStep url = RootStageStep.declined ↔
      (strEndsWith (cleanUrl url) "/" = true ∨ extname (cleanUrl url) = ".html" ∨
        isInternalRequest url = true ∨ strStartsWith url "//" = true) := by
  have hd : viteServeStaticDeclines url = true ↔
      (strEndsWith (cleanUrl url) "/" = true ∨ extname (cleanUrl url) = ".html" ∨
        isInternalRequest url = true ∨ strStartsWith url "//" = true) := by
    unfold viteServeStaticDeclines
    simp [or_assoc]
  rw [← hd]
  unfold viteServeStaticStep
  cases h : viteServeStaticDeclines url
  · simp only [Bool.false_eq_true, if_false]
    cases hdec : decodeURI (urlPathnameOf url) <;> simp
  · simp

theorem static_decline_characterization_w :
    viteServeStaticStep "/index.html" = RootStageStep.declined :=
  (static_decline_characterization "/index.html").mpr (Or.inr (Or.inl (by decide)))

/-- C8 counterexample: an import-marked request URL is not declined by the root stage; it proceeds to resolution, contradicting the inclusion of import requests among the decline conditions. -/
theorem import_request_not_declined_cex :
    isImportRequest "/foo.js?import" = true ∧
      viteServeStaticStep "/foo.js?import" = RootStageStep.resolved "/foo.js" :=
  ⟨by decide, by decide⟩

/-- Decoding is the identity on inputs without a percent sign. -/
theorem decodeGo_no_pct : ∀ (fuel : Nat) (l : List Char), l.length ≤ fuel →
    (∀ c ∈ l, c ≠ '%') → decodeGo fuel l = some l := by
  intro fuel
  induction fuel with
  | zero =>
    intro l hl _
    cases l with
    | nil => rfl
    | cons c t => simp at hl
  | succ f ih =>
    intro l hl hpct
    cases l with
    | nil => rfl
    | cons c t =>
      have hc : c ≠ '%' := hpct c (List.mem_cons_self c t)
      unfold decodeGo
      rw [if_neg hc]
      rw [ih t (by simpa using Nat.le_of_succ_le_succ hl)
        (fun x hx => hpct x (List.mem_cons_of_mem c hx))]
      rfl

/-- The decodeURI model returns its input unchanged when no percent sign occurs. -/
theorem decodeURI_no_pct (s : String) (h : ∀ c ∈ s.data, c ≠ '%') : decodeURI s = some s := by
  unfold decodeURI
  rw [decodeGo_no_pct s.data.length s.data (Nat.le_refl _) h]
  rfl

/-- A scan keeps the whole list when every element passes the test. -/
theorem takeWhile_all (p : Char → Bool) :
    ∀ l : List Char, (∀ c ∈ l, p c = true) → l.takeWhile p = l := by
  intro l
  induction l with
  | nil => intro _; rfl
  | cons c t ih =>
    intro h
    simp [List.takeWhile_cons, h c (List.mem_cons_self c t),
      ih (fun x hx => h x (List.mem_cons_of_mem c hx))]

/-- Characters distinct from the question mark and the hash pass the pathname scan. -/
theorem not_qh_of_ne (c : Char) (h1 : c ≠ '?') (h2 : c ≠ '#') :
    (!(c == '?' || c == '#')) = true := by
  simp [h1, h2]

/-- C4 (amended): a percent-decode failure is non-fatal only in the public stage, whose toFilePath falls back to the still-encoded string; in the root and raw-fs stages the pathname decode is unguarded and the decode failure escapes the middleware. -/
theorem decode_failure_recovery_scope (url : String) :
    (decodeURI (cleanUrl url) = none → toFilePath url = normalizePath (cleanUrl url)) ∧
    (viteServeStaticDeclines url = false → decodeURI (urlPathnameOf url) = none →
      viteServeStaticStep url = RootStageStep.crashed) ∧
    (strStartsWith url FS_PREFIX = true → decodeURI (urlPathnameOf url) = none →
      viteServeRawFsStep false url = RawFsOutcome.crashed) := by
  refine ⟨?_, ?_, ?_⟩
  · intro h
    unfold toFilePath
    by_cases hp : (cleanUrl url).data.any (fun c => c == '%')
    · simp [hp, h]
    · simp [hp]
  · intro hdecl hdec
    unfold viteServeStaticStep
    simp [hdecl, hdec]
  · intro hfs hdec
    unfold viteServeRawFsStep
    simp [hfs, hdec]

theorem decode_failure_recovery_scope_w :
    toFilePath "/%zz" = normalizePath "/%zz" ∧
      viteServeStaticStep "/%zz" = RootStageStep.crashed ∧
      viteServeRawFsStep false "/@fs/%zz" = RawFsOutcome.crashed :=
  ⟨(decode_failure_recovery_scope "/%zz").1 (by decide),
   (decode_failure_recovery_scope "/%zz").2.1 (by decide) (by decide),
   (decode_failure_recovery_scope "/@fs/%zz").2.2 (by decide) (by decide)⟩

/-- C4 counterexample: for the request URL holding a bare percent sign the decode failure escapes the root middleware and the raw-fs middleware, while the public-stage toFilePath recovers; decode failures are therefore not non-fatal in every serving stage. -/
theorem decode_crash_cex :
    decodeURI "/%" = none ∧
      viteServeStaticStep "/%" = RootStageStep.crashed ∧
      viteServeRawFsStep false "/@fs/%" = RawFsOutcome.crashed ∧
      toFilePath "/%" = "/%" :=
  ⟨by decide, by decide, by decide, by decide⟩

/-- Raw-fs resolution at list level for a posix absolute path: the escape-hatch marker is stripped and the remainder restored. -/
theorem rawfs_list (rest : List Char) (hrest : pfxb ['/'] rest = false)
    (hplain : ∀ c ∈ rest, c ≠ '%' ∧ c ≠ '?' ∧ c ≠ '#') :
    viteServeRawFsStep false ⟨'/' :: '@' :: 'f' :: 's' :: '/' :: rest⟩ =
      RawFsOutcome.resolved ⟨'/' :: rest⟩ := by
  have h1 : strStartsWith ⟨'/' :: '@' :: 'f' :: 's' :: '/' :: rest⟩ FS_PREFIX = true := by
    show pfxb ['/', '@', 'f', 's', '/'] ('/' :: '@' :: 'f' :: 's' :: '/' :: rest) = true
    simp [pfxb]
  have hall : ∀ c ∈ ('/' :: '@' :: 'f' :: 's' :: '/' :: rest), (!(c == '?' || c == '#')) = true := by
    intro c hc
    simp only [List.mem_cons] at hc
    rcases hc with rfl | rfl | rfl | rfl | rfl | hmem
    · decide
    · decide
    · decide
    · decide
    · decide
    · exact not_qh_of_ne c (hplain c hmem).2.1 (hplain c hmem).2.2
  have h2 : urlPathnameOf ⟨'/' :: '@' :: 'f' :: 's' :: '/' :: rest⟩ =
      ⟨'/' :: '@' :: 'f' :: 's' :: '/' :: rest⟩ := by
    unfold urlPathnameOf
    exact congrArg String.mk (takeWhile_all _ _ hall)
  have hpct : ∀ c ∈ ('/' :: '@' :: 'f' :: 's' :: '/' :: rest), c ≠ '%' := by
    intro c hc
    simp only [List.mem_cons] at hc
    rcases hc with rfl | rfl | rfl | rfl | rfl | hmem
    · decide
    · decide
    · decide
    · decide
    · decide
    · exact (hplain c hmem).1
  have h3 : decodeURI ⟨'/' :: '@' :: 'f' :: 's' :: '/' :: rest⟩ =
      some ⟨'/' :: '@' :: 'f' :: 's' :: '/' :: rest⟩ := decodeURI_no_pct _ hpct
  have h5 : strDrop ⟨'/' :: '@' :: 'f' :: 's' :: '/' :: rest⟩ (strLength FS_PREFIX) =
      ⟨rest⟩ := rfl
  have h6 : ensureLeadingSlash ⟨rest⟩ = ⟨'/' :: rest⟩ := by
    unfold ensureLeadingSlash
    simp only [show strStartsWith ⟨rest⟩ "/" = false from hrest, Bool.false_eq_true, if_false]
    rfl
  unfold viteServeRawFsStep
  simp only [h1, if_true, h2, h3, h5, Bool.false_eq_true, if_false, h6]

/-- Raw-fs resolution at list level with a drive letter on Windows: the marker and the drive are both stripped. -/
theorem rawfs_list_win (rest : List Char)
    (hplain : ∀ c ∈ rest, c ≠ '%' ∧ c ≠ '?' ∧ c ≠ '#') :
    viteServeRawFsStep true ⟨'/' :: '@' :: 'f' :: 's' :: '/' :: 'C' :: ':' :: '/' :: rest⟩ =
      RawFsOutcome.resolved ⟨'/' :: rest⟩ := by
  have h1 : strStartsWith ⟨'/' :: '@' :: 'f' :: 's' :: '/' :: 'C' :: ':' :: '/' :: rest⟩
      FS_PREFIX = true := by
    show pfxb ['/', '@', 'f', 's', '/']
      ('/' :: '@' :: 'f' :: 's' :: '/' :: 'C' :: ':' :: '/' :: rest) = true
    simp [pfxb]
  have hall : ∀ c ∈ ('/' :: '@' :: 'f' :: 's' :: '/' :: 'C' :: ':' :: '/' :: rest),
      (!(c == '?' || c == '#')) = true := by
    intro c hc
    simp only [List.mem_cons] at hc
    rcases hc with rfl | rfl | rfl | rfl | rfl | rfl | rfl | rfl | hmem
    · decide
    · decide
    · decide
    · decide
    · decide
    · decide
    · decide
    · decide
    · exact not_qh_of_ne c (hplain c hmem).2.1 (hplain c hmem).2.2
  have h2 : urlPathnameOf ⟨'/' :: '@' :: 'f' :: 's' :: '/' :: 'C' :: ':' :: '/' :: rest⟩ =
      ⟨'/' :: '@' :: 'f' :: 's' :: '/' :: 'C' :: ':' :: '/' :: rest⟩ := by
    unfold urlPathnameOf
    exact congrArg String.mk (takeWhile_all _ _ hall)
  have hpct : ∀ c ∈ ('/' :: '@' :: 'f' :: 's' :: '/' :: 'C' :: ':' :: '/' :: rest), c ≠ '%' := by
    intro c hc
    simp only [List.mem_cons] at hc
    rcases hc with rfl | rfl | rfl | rfl | rfl | rfl | rfl | rfl | hmem
    · decide
    · decide
    · decide
    · decide
    · decide
    · decide
    · decide
    · decide
    · exact (hplain c hmem).1
  have h3 : decodeURI ⟨'/' :: '@' :: 'f' :: 's' :: '/' :: 'C' :: ':' :: '/' :: rest⟩ =
      some ⟨'/' :: '@' :: 'f' :: 's' :: '/' :: 'C' :: ':' :: '/' :: rest⟩ :=
    decodeURI_no_pct _ hpct
  have h5 : stripDriveLetter (strDrop ⟨'/' :: '@' :: 'f' :: 's' :: '/' :: 'C' :: ':' :: '/' :: rest⟩
      (strLength FS_PREFIX)) = ⟨'/' :: rest⟩ := rfl
  have h6 : ensureLeadingSlash ⟨'/' :: rest⟩ = ⟨'/' :: rest⟩ := rfl
  unfold viteServeRawFsStep
  simp only [h1, if_true, h2, h3, h5, h6]

/-- C5: prefixing a plain normalized absolute path with the escape-hatch marker and running the raw-fs stage resolves it back to the same absolute path as the candidate filesystem path, independent of the project root; on Windows a leading drive letter and colon are additionally stripped. -/
theorem raw_fs_round_trip (p : String) (habs : strStartsWith p "/" = true)
    (hne : strStartsWith p "//" = false)
    (hplain : ∀ c ∈ p.data, c ≠ '%' ∧ c ≠ '?' ∧ c ≠ '#') :
    viteServeRawFsStep false ("/@fs" ++ p) = RawFsOutcome.resolved p ∧
      viteServeRawFsStep true ("/@fs/C:" ++ p) = RawFsOutcome.resolved p := by
  obtain ⟨pd⟩ := p
  have habs' : pfxb ['/'] pd = true := habs
  cases pd with
  | nil => exact absurd habs' (by decide)
  | cons c rest =>
    have hc : c = '/' := by
      simp [pfxb] at habs'
      exact habs'.symm
    subst hc
    have hne' : pfxb ['/', '/'] ('/' :: rest) = false := hne
    have hrest : pfxb ['/'] rest = false := by simpa [pfxb] using hne'
    have hplain' : ∀ x ∈ rest, x ≠ '%' ∧ x ≠ '?' ∧ x ≠ '#' :=
      fun x hx => hplain x (List.mem_cons_of_mem _ hx)
    exact ⟨rawfs_list rest hrest hplain', rawfs_list_win rest hplain'⟩

theorem raw_fs_round_trip_w :
    viteServeRawFsStep false ("/@fs" ++ "/home/user/linked-pkg/index.js") =
      RawFsOutcome.resolved "/home/user/linked-pkg/index.js" :=
  (raw_fs_round_trip "/home/user/linked-pkg/index.js" (by decide) (by decide) (by decide)).1

/-- The boolean leading-segment test agrees with the prefix relation. -/
theorem pfxb_iff : ∀ (a b : List Char), pfxb a b = true ↔ a <+: b := by
  intro a
  induction a with
  | nil =>
    intro b
    simp [pfxb]
  | cons x xs ih =>
    intro b
    cases b with
    | nil => simp [pfxb]
    | cons y ys => simp [pfxb, ih ys, List.cons_prefix_cons]

/-- A nonempty pattern never leads an empty list. -/
theorem pfxb_ne_nil (pat l : List Char) (hp : pat ≠ []) (h : pfxb pat l = true) : l ≠ [] := by
  intro hl
  subst hl
  cases pat with
  | nil => exact hp rfl
  | cons a as => simp [pfxb] at h

/-- Rules before the first match do not affect the alias result. -/
theorem applyAliases_append (pre rs : List AliasRule) (pn : String)
    (h : ∀ r ∈ pre, strStartsWith pn r.find = false) :
    applyAliases (pre ++ rs) pn = applyAliases rs pn := by
  induction pre with
  | nil => rfl
  | cons r rest ih =>
    have hr : strStartsWith pn r.find = false := h r (List.mem_cons_self r rest)
    show (if strStartsWith pn r.find = true then some (jsReplaceFirst pn r.find r.replacement)
      else applyAliases (rest ++ rs) pn) = applyAliases rs pn
    rw [if_neg (by simp [hr])]
    exact ih (fun x hx => h x (List.mem_cons_of_mem r hx))

/-- C9: alias rewriting in the root stage applies only the first matching rule (later rules are skipped), a rewritten path starting with the served root as a directory prefix is stripped and resolved root-relative exactly like a non-rewritten path, and with an empty alias list resolution is the direct join of the served root and the decoded pathname. -/
theorem alias_first_match_resolution (dir url : String) (pre post : List AliasRule)
    (r : AliasRule) (pn : String)
    (hdec : decodeURI (urlPathnameOf url) = some pn)
    (hpre : ∀ q ∈ pre, strStartsWith pn q.find = false)
    (hr : strStartsWith pn r.find = true)
    (hdir : strEndsWith dir "/" = false) :
    staticResolve (pre ++ r :: post) dir url = staticResolve [r] dir url ∧
    (strStartsWith (jsReplaceFirst pn r.find r.replacement) (withTrailingSlash dir) = true →
      staticResolve [r] dir url =
        some (directResolve dir
          (strDrop (jsReplaceFirst pn r.find r.replacement) (strLength dir)))) ∧
    staticResolve [] dir url = some (directResolve dir pn) := by
  have ha : applyAliases (r :: post) pn = some (jsReplaceFirst pn r.find r.replacement) := by
    unfold applyAliases
    simp [hr]
  have ha1 : applyAliases [r] pn = some (jsReplaceFirst pn r.find r.replacement) := by
    unfold applyAliases
    simp [hr]
  refine ⟨?_, ?_, ?_⟩
  · unfold staticResolve
    simp only [hdec]
    rw [applyAliases_append pre (r :: post) pn hpre, ha, ha1]
  · intro hsw
    have hwts : (withTrailingSlash dir).data = dir.data ++ ['/'] := by
      unfold withTrailingSlash
      simp only [hdir, Bool.false_eq_true, if_false]
      rfl
    have hwne : (withTrailingSlash dir).data ≠ [] := by
      rw [hwts]
      simp
    obtain ⟨t, ht⟩ : (withTrailingSlash dir).data <+:
        (jsReplaceFirst pn r.find r.replacement).data :=
      (pfxb_iff _ _).mp hsw
    have hrwne : ((jsReplaceFirst pn r.find r.replacement) == "") = false := by
      apply beq_eq_false_iff_ne.mpr
      intro hcontra
      have hd := congrArg String.data hcontra
      have hne := pfxb_ne_nil _ _ hwne hsw
      exact hne hd
    have hdrop : strDrop (jsReplaceFirst pn r.find r.replacement) (strLength dir) =
        ⟨'/' :: t⟩ := by
      unfold strDrop strLength
      rw [← ht, hwts, List.append_assoc]
      exact congrArg String.mk (List.drop_left _ _)
    have hdropne : ((strDrop (jsReplaceFirst pn r.find r.replacement) (strLength dir)) == "") =
        false := by
      rw [hdrop]
      apply beq_eq_false_iff_ne.mpr
      intro hcontra
      have hd := congrArg String.data hcontra
      simp at hd
    unfold staticResolve
    simp only [hdec, ha1, hrwne, Bool.not_false, hsw, Bool.and_self, if_true, hdropne,
      Bool.false_eq_true, if_false]
  · unfold staticResolve
    simp only [hdec, applyAliases]

theorem alias_first_match_resolution_w :
    staticResolve [⟨"/nope", "/zzz"⟩, ⟨"/@alias/", "/root/src/"⟩, ⟨"/@alias/", "/other/"⟩]
        "/root" "/@alias/x.js" =
      staticResolve [⟨"/@alias/", "/root/src/"⟩] "/root" "/@alias/x.js" ∧
    staticResolve [⟨"/@alias/", "/root/src/"⟩] "/root" "/@alias/x.js" =
      some (directResolve "/root" "/src/x.js") ∧
    staticResolve [] "/root" "/@alias/x.js" = some (directResolve "/root" "/@alias/x.js") := by
  have h := alias_first_match_resolution "/root" "/@alias/x.js" [⟨"/nope", "/zzz"⟩]
    [⟨"/@alias/", "/other/"⟩] ⟨"/@alias/", "/root/src/"⟩ "/@alias/x.js"
    (by decide) (by decide) (by decide) (by decide)
  refine ⟨h.1, ?_, h.2.2⟩
  have h2 := h.2.1 (by decide)
  have h0 : strDrop (jsReplaceFirst "/@alias/x.js" "/@alias/" "/root/src/") (strLength "/root") =
      "/src/x.js" := by decide
  exact h0 ▸ h2

/-- The expansion distributes over append. -/
theorem cmap_append (f : Char → List Char) (a b : List Char) :
    cmap f (a ++ b) = cmap f a ++ cmap f b := by
  induction a with
  | nil => rfl
  | cons c t ih => simp [cmap, ih, List.append_assoc]

/-- Composing two expansions expands by the composite. -/
theorem cmap_cmap (f g : Char → List Char) (l : List Char) :
    cmap g (cmap f l) = cmap (fun c => cmap g (f c)) l := by
  induction l with
  | nil => rfl
  | cons c t ih => simp [cmap, cmap_append, ih]

/-- Escaping followed by newline replacement is the combined per-character expansion. -/
theorem brEscape_eq (l : List Char) : nlToBr (escapeHtml l) = cmap renderChar l := by
  exact cmap_cmap escapeHtmlChar brChar l

/-- The expansion as a flattened map. -/
theorem cmap_eq_flatten_map (f : Char → List Char) (l : List Char) :
    cmap f l = (l.map f).flatten := by
  induction l with
  | nil => rfl
  | cons c t ih => simp [cmap, List.map_cons, List.flatten_cons, ih]

/-- Every expanded character block is harmless. -/
theorem renderChar_ok (c : Char) : blockOK (renderChar c) := by
  by_cases h1 : c = '&'
  · subst h1; decide
  by_cases h2 : c = '"'
  · subst h2; decide
  by_cases h3 : c = '\''
  · subst h3; decide
  by_cases h4 : c = '<'
  · subst h4; decide
  by_cases h5 : c = '>'
  · subst h5; decide
  by_cases h6 : c = '\n'
  · subst h6; decide
  have hr : renderChar c = [c] := by
    unfold renderChar escapeHtmlChar
    rw [if_neg h1, if_neg h2, if_neg h3, if_neg h4, if_neg h5]
    simp [cmap, brChar, h6]
  rw [hr]
  refine ⟨by simp, by simp, ?_, ?_⟩
  · intro hpre
    have hlen := hpre.length_le
    simp [scriptL] at hlen
  · intro hpre
    obtain ⟨t, ht⟩ := hpre
    have hc : c = '<' := by
      have hh := congrArg List.head? ht
      simpa [scriptL] using hh
    exact h4 hc

/-- A suffix of an appended list either covers the right part entirely or lies within it. -/
theorem suffix_append_cases {t b R : List Char} (h : t <:+ b ++ R) :
    (∃ b', b' <:+ b ∧ t = b' ++ R) ∨ t <:+ R := by
  obtain ⟨a, ha⟩ := h
  by_cases hab : a.length ≤ b.length
  · left
    refine ⟨List.drop a.length b, List.drop_suffix _ _, ?_⟩
    have h1 := congrArg (List.drop a.length) ha
    rw [List.drop_left] at h1
    rw [List.drop_append_of_le_length hab] at h1
    exact h1
  · right
    have h1 := congrArg (List.drop b.length) ha
    rw [List.drop_append_of_le_length (Nat.le_of_lt (Nat.lt_of_not_le hab))] at h1
    rw [List.drop_left] at h1
    exact ⟨List.drop b.length a, h1⟩

/-- No suffix of a flattened harmless block sequence begins with the raw script tag. -/
theorem no_scr_aux : ∀ (bs : List (List Char)), (∀ b ∈ bs, blockOK b) →
    ∀ t, t <:+ bs.flatten → ¬ scriptL <+: t := by
  intro bs
  induction bs with
  | nil =>
    intro _ t ht hpre
    rw [List.suffix_nil.mp ht] at hpre
    have := List.prefix_nil.mp hpre
    simp [scriptL] at this
  | cons b rest ih =>
    intro hOK t ht hpre
    have hbOK : blockOK b := hOK b (List.mem_cons_self b rest)
    have hrestOK : ∀ x ∈ rest, blockOK x := fun x hx => hOK x (List.mem_cons_of_mem b hx)
    rw [List.flatten_cons] at ht
    rcases suffix_append_cases ht with ⟨b', hb', rfl⟩ | hR
    · rcases eq_or_ne b' b with rfl | hneq
      · have hbp : b' <+: b' ++ rest.flatten := List.prefix_append b' rest.flatten
        rcases List.prefix_or_prefix_of_prefix hpre hbp with h | h
        · exact hbOK.2.2.1 h
        · exact hbOK.2.2.2 h
      · rcases eq_or_ne b' [] with rfl | hne
        · refine ih hrestOK rest.flatten (List.suffix_refl _) ?_
          simpa using hpre
        · obtain ⟨c, b'', rfl⟩ := List.exists_cons_of_ne_nil hne
          obtain ⟨u, hu⟩ := hpre
          have hc : '<' = c := by
            have hh := congrArg List.head? hu
            simpa [scriptL] using hh
          obtain ⟨hd, tl, rfl⟩ := List.exists_cons_of_ne_nil hbOK.1
          have hsuf : (c :: b'') <:+ tl := by
            rcases List.suffix_cons_iff.mp hb' with heq | hsuf
            · exact absurd heq hneq
            · exact hsuf
          have hctl : c ∈ tl := hsuf.subset (List.mem_cons_self c b'')
          exact hbOK.2.1 c hctl hc.symm
    · exact ih hrestOK t hR hpre

/-- The denial body as a flattening of harmless blocks around the expanded message. -/
theorem body_as_blocks (id : String) (allow : List String) :
    (respondWithAccessDenied id allow).body =
      (preBlocks ++ (urlMessage id ++ '\n' :: hintMessage allow).map renderChar ++
        postBlocks).flatten := by
  show renderRestrictedErrorHTML (urlMessage id ++ '\n' :: hintMessage allow) = _
  unfold renderRestrictedErrorHTML
  rw [brEscape_eq, cmap_eq_flatten_map]
  rw [List.flatten_append, List.flatten_append]
  rw [show htmlPre.data = preBlocks.flatten from by decide,
    show htmlPost.data = postBlocks.flatten from by decide]

/-- The raw script tag never occurs inside the denial body, whatever the request id and allow roots hold. -/
theorem no_script_in_body (id : String) (allow : List String) :
    ¬ scriptL <:+: (respondWithAccessDenied id allow).body := by
  intro hinf
  rw [body_as_blocks] at hinf
  obtain ⟨t, hpre, hsuf⟩ := List.infix_iff_prefix_suffix.mp hinf
  refine no_scr_aux _ ?_ t hsuf hpre
  intro b hb
  rcases List.mem_append.mp hb with hb1 | hb2
  · rcases List.mem_append.mp hb1 with hp | hm
    · exact (by decide : ∀ x ∈ preBlocks, blockOK x) b hp
    · obtain ⟨c, _, rfl⟩ := List.mem_map.mp hm
      exact renderChar_ok c
  · exact (by decide : ∀ x ∈ postBlocks, blockOK x) b hb2

/-- The expansion of an inner segment occurs inside the expansion of the whole. -/
theorem brEscape_infix (x m : List Char) (h : x <:+: m) : brEscape x <:+: brEscape m := by
  obtain ⟨s, t, rfl⟩ := h
  unfold brEscape
  rw [brEscape_eq, brEscape_eq]
  exact ⟨cmap renderChar s, cmap renderChar t, by rw [cmap_append, cmap_append]⟩

/-- Each listed piece occurs in the separator join. -/
theorem mem_joinWith (sep : List Char) : ∀ (xs : List (List Char)) (x : List Char),
    x ∈ xs → x <:+: joinWith sep xs := by
  intro xs
  induction xs with
  | nil => intro x hx; simp at hx
  | cons y ys ih =>
    intro x hx
    rcases List.mem_cons.mp hx with rfl | hmem
    · cases ys with
      | nil => exact List.infix_refl _
      | cons z zs =>
        refine ⟨[], sep ++ joinWith sep (z :: zs), ?_⟩
        show [] ++ x ++ (sep ++ joinWith sep (z :: zs)) = x ++ sep ++ joinWith sep (z :: zs)
        simp [List.append_assoc]
    · cases ys with
      | nil => simp at hmem
      | cons z zs =>
        have h1 := ih x hmem
        have h2 : joinWith sep (z :: zs) <:+ joinWith sep (y :: z :: zs) := by
          show joinWith sep (z :: zs) <:+ y ++ sep ++ joinWith sep (z :: zs)
          exact List.suffix_append _ _
        exact h1.trans h2.isInfix

/-- An inner segment of the wrapped join occurs in the assembled message. -/
theorem infix_mid (U J R x : List Char) (h : x <:+: J) :
    x <:+: (U ++ '\n' :: '\n' :: (J ++ R)) := by
  refine h.trans ?_
  have hA : J <:+: J ++ R := (List.prefix_append J R).isInfix
  have h0 : (J ++ R) <:+ ('\n' :: (J ++ R)) := List.suffix_cons '\n' _
  have h1 : ('\n' :: (J ++ R)) <:+ ('\n' :: '\n' :: (J ++ R)) := List.suffix_cons '\n' _
  have hD : (J ++ R) <:+ (U ++ '\n' :: '\n' :: (J ++ R)) :=
    (h0.trans h1).trans (List.suffix_append U _)
  exact hA.trans hD.isInfix

/-- The escaped form of any segment of the combined denial message occurs in the body. -/
theorem msg_infix_body (id : String) (allow : List String) (x : List Char)
    (h : x <:+: (urlMessage id ++ '\n' :: hintMessage allow)) :
    brEscape x <:+: (respondWithAccessDenied id allow).body := by
  have h1 := brEscape_infix _ _ h
  have h2 : brEscape (urlMessage id ++ '\n' :: hintMessage allow) <:+:
      (respondWithAccessDenied id allow).body :=
    ⟨htmlPre.data, htmlPost.data, rfl⟩
  exact h1.trans h2

/-- The request-id message is a segment of the combined denial message. -/
theorem urlMessage_infix_msg (id : String) (allow : List String) :
    urlMessage id <:+: (urlMessage id ++ '\n' :: hintMessage allow) :=
  ⟨[], '\n' :: hintMessage allow, by simp⟩

/-- Each allow root, on its listed line, is a segment of the combined denial message. -/
theorem allow_entry_infix_msg (id : String) (allow : List String) (a : String) (ha : a ∈ allow) :
    ('-' :: ' ' :: a.data) <:+: (urlMessage id ++ '\n' :: hintMessage allow) := by
  have h1 : ('-' :: ' ' :: a.data) <:+:
      joinWith ['\n'] (allow.map (fun i => '-' :: ' ' :: i.data)) :=
    mem_joinWith _ _ _ (List.mem_map.mpr ⟨a, ha, rfl⟩)
  have hexp : hintMessage allow = '\n' ::
      (joinWith ['\n'] (allow.map (fun i => '-' :: ' ' :: i.data)) ++
        "\n\nRefer to docs https://vite.dev/config/server-options.html#server-fs-allow for configurations and more details.".data) := rfl
  rw [hexp]
  exact infix_mid (urlMessage id) _ _ _ h1

/-- C6: the denial response has HTTP status 403; its body holds interpolated untrusted text only HTML-escaped: no raw script-tag substring ever occurs, while the escaped request-id message and each configured allow root, escaped on its own listed line, do occur in the body. -/
theorem denial_response_escaped (id : String) (allow : List String) :
    (respondWithAccessDenied id allow).statusCode = 403 ∧
    ¬ ("<script>".data <:+: (respondWithAccessDenied id allow).body) ∧
    brEscape (urlMessage id) <:+: (respondWithAccessDenied id allow).body ∧
    ∀ a ∈ allow, brEscape ('-' :: ' ' :: a.data) <:+: (respondWithAccessDenied id allow).body := by
  refine ⟨rfl, ?_, ?_, ?_⟩
  · have h := no_script_in_body id allow
    rwa [show scriptL = "<script>".data from by decide] at h
  · exact msg_infix_body id allow _ (urlMessage_infix_msg id allow)
  · intro a ha
    exact msg_infix_body id allow _ (allow_entry_infix_msg id allow a ha)

theorem denial_response_escaped_w :
    ¬ ("<script>".data <:+:
        (respondWithAccessDenied "/etc/<script>alert(1)</script>" ["/proj"]).body) ∧
      brEscape ('-' :: ' ' :: "/proj".data) <:+:
        (respondWithAccessDenied "/etc/<script>alert(1)</script>" ["/proj"]).body :=
  ⟨(denial_response_escaped "/etc/<script>alert(1)</script>" ["/proj"]).2.1,
   (denial_response_escaped "/etc/<script>alert(1)</script>" ["/proj"]).2.2.2 "/proj"
     (by decide)⟩
